import Mathlib

/-!
Verification of the must-gather bundle locator and resource extractor
(`src/mg/src/mustgather.rs` and `src/mg/src/k8s_resources.rs`) against its
natural-language specification.

The filesystem is modelled as a finite tree: a node is either a file with
textual content, or a directory with a finite list of named entries.  Paths
are lists of path components.  The YAML loader is a leaf dependency of the
code under verification; manifest-reading functions are therefore
parameterised by an abstract parse function from file text to a sequence
of documents.
-/

namespace Camgi

/-- A filesystem node: a file with its textual content, or a directory with
named child entries (in directory-iteration order). -/
inductive FSNode : Type where
  | file (content : String) : FSNode
  | dir (entries : List (String × FSNode)) : FSNode
deriving Inhabited

/-- Whether a node is a directory (`Path::is_dir` on an existing node). -/
def FSNode.isDirB : FSNode → Bool
  | .dir _ => true
  | .file _ => false

/-- Whether a node is a file (`Path::is_file` on an existing node). -/
def FSNode.isFileB : FSNode → Bool
  | .file _ => true
  | .dir _ => false

/-- Look up a directory entry by name (a single `path.join(name)` stat). -/
def lookupEntry (es : List (String × FSNode)) (n : String) : Option FSNode :=
  (es.find? (fun e => e.1 == n)).map (fun e => e.2)

/-- `path.join(n).is_file()`: the entry named `n` exists and is a file. -/
def hasFileEntry (es : List (String × FSNode)) (n : String) : Bool :=
  match lookupEntry es n with
  | some (.file _) => true
  | _ => false

/-- `path.join(n).is_dir()`: the entry named `n` exists and is a directory. -/
def hasDirEntry (es : List (String × FSNode)) (n : String) : Bool :=
  match lookupEntry es n with
  | some (.dir _) => true
  | _ => false

/-- The root-marker condition of `find_mustgather_root` line 48:
`version.is_file() || (ns_dir.is_dir() && csr_dir.is_dir())`. -/
def isMarked (es : List (String × FSNode)) : Bool :=
  hasFileEntry es "version" ||
    (hasDirEntry es "namespaces" && hasDirEntry es "cluster-scoped-resources")

/-- Errors of the root finder: `read_dir` I/O failure on a non-directory,
and the `anyhow` error "Cannot determine root of must-gather". -/
inductive MgError : Type where
  | readErr : MgError
  | ambiguousOrMissing : MgError
deriving DecidableEq, Repr

theorem sizeOf_lt_of_entry_mem {n : String} {c : FSNode}
    {es : List (String × FSNode)} (h : (n, c) ∈ es) :
    sizeOf c < sizeOf (FSNode.dir es) := by
  have h1 : sizeOf (n, c) < sizeOf es := List.sizeOf_lt_of_mem h
  simp only [Prod.mk.sizeOf_spec] at h1
  simp only [FSNode.dir.sizeOf_spec]
  omega

/-- Shallow embedding of `MustGatherRoot::find_mustgather_root`
(mustgather.rs lines 43-68).  Returns the path of the located root relative
to the start node.  Calling it on a file models calling the original on a
path whose `fs::read_dir` fails with an I/O error. -/
def find_mustgather_root (node : FSNode) : Except MgError (List String) :=
  match node with
  | .file _ => .error .readErr
  | .dir es =>
    if isMarked es then
      .ok []
    else
      match hsub : es.filter (fun e => e.2.isDirB) with
      | [e] => (find_mustgather_root e.2).map (fun p => e.1 :: p)
      | _ => .error .ambiguousOrMissing
termination_by sizeOf node
decreasing_by
  rename_i es hm
  have hmem : e ∈ List.filter (fun e => e.2.isDirB) es := by
    rw [hsub]; exact List.mem_singleton.mpr rfl
  have hmem2 : (e.1, e.2) ∈ es := by
    rw [Prod.mk.eta]; exact List.mem_of_mem_filter hmem
  exact sizeOf_lt_of_entry_mem hmem2

theorem find_root_file (c : String) :
    find_mustgather_root (.file c) = .error .readErr := by
  rw [find_mustgather_root]

theorem find_root_marked {es : List (String × FSNode)}
    (h : isMarked es = true) : find_mustgather_root (.dir es) = .ok [] := by
  rw [find_mustgather_root]
  simp [h]

theorem find_root_single {es : List (String × FSNode)} {e : String × FSNode}
    (h : isMarked es = false) (hs : es.filter (fun e => e.2.isDirB) = [e]) :
    find_mustgather_root (.dir es) =
      (find_mustgather_root e.2).map (fun p => e.1 :: p) := by
  rw [find_mustgather_root]
  simp only [h, Bool.false_eq_true, if_false]
  split
  · rename_i e1 heq
    rw [hs] at heq
    cases heq
    rfl
  · rename_i hne
    exact absurd (hs.trans rfl) (by simpa using hne e)

theorem find_root_other {es : List (String × FSNode)}
    (h : isMarked es = false)
    (hs : (es.filter (fun e => e.2.isDirB)).length ≠ 1) :
    find_mustgather_root (.dir es) = .error .ambiguousOrMissing := by
  rw [find_mustgather_root]
  simp only [h, Bool.false_eq_true, if_false]
  split
  · rename_i e1 heq
    rw [heq] at hs
    simp at hs
  · rfl

/-- A chain of single-child wrapper directories: `chain [n1, ..., nk] t` is
the tree `n1/n2/.../nk` whose innermost directory holds `t` as only entry. -/
def chain : List String → FSNode → FSNode
  | [], t => t
  | n :: ns, t => .dir [(n, chain ns t)]

/-- Resolve a relative path against a tree, one stat per component. -/
def resolve (node : FSNode) : List String → Option FSNode
  | [] => some node
  | n :: rest =>
    match node with
    | .file _ => none
    | .dir es =>
      match lookupEntry es n with
      | some child => resolve child rest
      | none => none

theorem resolve_chain (ns : List String) (t : FSNode) :
    resolve (chain ns t) ns = some t := by
  induction ns with
  | nil => rfl
  | cons n rest ih =>
    simp only [chain, resolve, lookupEntry, List.find?, beq_self_eq_true]
    exact ih

theorem lookupEntry_singleton (n m : String) (c : FSNode) :
    lookupEntry [(n, c)] m = if (n == m) = true then some c else none := by
  by_cases h : (n == m) = true <;> simp [lookupEntry, List.find?, h]

theorem singleton_wrapper_unmarked (n : String) (es2 : List (String × FSNode)) :
    isMarked [(n, FSNode.dir es2)] = false := by
  have h1 : hasFileEntry [(n, FSNode.dir es2)] "version" = false := by
    by_cases h : (n == "version") = true <;>
      simp [hasFileEntry, lookupEntry_singleton, h]
  have h2 : hasDirEntry [(n, FSNode.dir es2)] "namespaces" = false ∨
      hasDirEntry [(n, FSNode.dir es2)] "cluster-scoped-resources" = false := by
    by_cases h : (n == "namespaces") = true
    · right
      have hn : n = "namespaces" := by simpa using h
      subst hn
      simp [hasDirEntry, lookupEntry_singleton]
    · left
      simp [hasDirEntry, lookupEntry_singleton, h]
  rcases h2 with h2 | h2 <;> simp [isMarked, h1, h2]

theorem chain_dir_exists (ns : List String) (es : List (String × FSNode)) :
    ∃ es2, chain ns (FSNode.dir es) = FSNode.dir es2 := by
  cases ns with
  | nil => exact ⟨es, rfl⟩
  | cons n rest => exact ⟨[(n, chain rest (FSNode.dir es))], rfl⟩

theorem except_map_map {α β γ ε : Type} (f : β → γ) (g : α → β)
    (x : Except ε α) :
    Except.map f (Except.map g x) = Except.map (fun a => f (g a)) x := by
  cases x <;> rfl

/-- Descending a chain of single-child wrapper directories prepends the
chain to whatever the search finds at the innermost directory. -/
theorem find_root_chain (ns : List String) (es : List (String × FSNode)) :
    find_mustgather_root (chain ns (FSNode.dir es)) =
      (find_mustgather_root (FSNode.dir es)).map (fun p => ns ++ p) := by
  induction ns with
  | nil =>
    cases hr : find_mustgather_root (FSNode.dir es) <;> simp [chain, hr, Except.map]
  | cons n rest ih =>
    obtain ⟨es2, hes2⟩ := chain_dir_exists rest es
    have hunm : isMarked [(n, chain rest (FSNode.dir es))] = false := by
      rw [hes2]; exact singleton_wrapper_unmarked n es2
    have hfil : List.filter (fun e => e.2.isDirB) [(n, chain rest (FSNode.dir es))] =
        [(n, chain rest (FSNode.dir es))] := by
      rw [hes2]; simp [List.filter, FSNode.isDirB]
    rw [chain, find_root_single hunm hfil, ih, except_map_map]
    rfl

/-- C1: for every marked directory (a `version` file, or both a
`namespaces` and a `cluster-scoped-resources` directory — the `version`
check short-circuits first, as in `isMarked`) sitting at any depth below
the start under a chain of single-child wrapper directories, the root
finder succeeds and returns exactly the path of that directory, which resolves
back to it. -/
theorem mustgather_root_found_at_any_depth (ns : List String)
    (es : List (String × FSNode))
    (hm : hasFileEntry es "version" = true ∨
      (hasDirEntry es "namespaces" = true ∧
        hasDirEntry es "cluster-scoped-resources" = true)) :
    find_mustgather_root (chain ns (FSNode.dir es)) = .ok ns ∧
    resolve (chain ns (FSNode.dir es)) ns = some (FSNode.dir es) := by
  have hmk : isMarked es = true := by
    rcases hm with h | ⟨h1, h2⟩
    · simp [isMarked, h]
    · simp [isMarked, h1, h2]
  refine ⟨?_, resolve_chain ns (FSNode.dir es)⟩
  rw [find_root_chain, find_root_marked hmk]
  simp [Except.map]

/-- Witness for C1 at a concrete tree of depth 2. -/
theorem mustgather_root_found_at_any_depth_witness :
    find_mustgather_root
        (chain ["a", "b"] (FSNode.dir [("version", FSNode.file "4")])) =
      .ok ["a", "b"] ∧
    resolve (chain ["a", "b"] (FSNode.dir [("version", FSNode.file "4")]))
        ["a", "b"] =
      some (FSNode.dir [("version", FSNode.file "4")]) :=
  mustgather_root_found_at_any_depth ["a", "b"]
    [("version", FSNode.file "4")] (Or.inl rfl)

/-- C2: below any chain of single-child wrappers, an unmarked directory
with a subdirectory count other than one makes the search fail with the
ambiguous-or-missing-root error; and the search recurses exactly when the
filtered subdirectory list is a singleton. -/
theorem mustgather_root_ambiguous (ns : List String)
    (es : List (String × FSNode)) (hm : isMarked es = false) :
    ((es.filter (fun e => e.2.isDirB)).length ≠ 1 →
      find_mustgather_root (chain ns (FSNode.dir es)) =
        .error .ambiguousOrMissing) ∧
    (∀ e, es.filter (fun e => e.2.isDirB) = [e] →
      find_mustgather_root (FSNode.dir es) =
        (find_mustgather_root e.2).map (fun p => e.1 :: p)) := by
  constructor
  · intro hlen
    rw [find_root_chain, find_root_other hm hlen]
    rfl
  · intro e hs
    exact find_root_single hm hs

/-- Witness for C2 at a concrete tree: a wrapper chain of depth 1 over a
directory with zero subdirectories. -/
theorem mustgather_root_ambiguous_witness :
    find_mustgather_root (chain ["a"] (FSNode.dir [("x", FSNode.file "y")])) =
      .error .ambiguousOrMissing :=
  (mustgather_root_ambiguous ["a"] [("x", FSNode.file "y")] rfl).1 (by decide)

/-- Fuel-indexed variant of the root finder: `none` means the fuel ran out
before the recursion finished.  Used to express termination of the
recursion with an explicit bound. -/
def find_root_fuel : Nat → FSNode → Option (Except MgError (List String))
  | 0, _ => none
  | fuel + 1, node =>
    match node with
    | .file _ => some (.error .readErr)
    | .dir es =>
      if isMarked es then
        some (.ok [])
      else
        match es.filter (fun e => e.2.isDirB) with
        | [e] => (find_root_fuel fuel e.2).map (Except.map (fun p => e.1 :: p))
        | _ => some (.error .ambiguousOrMissing)

theorem FSNode.one_le_sizeOf (t : FSNode) : 1 ≤ sizeOf t := by
  cases t with
  | file c => simp [FSNode.file.sizeOf_spec]
  | dir es => simp [FSNode.dir.sizeOf_spec]

theorem find_root_fuel_sufficient :
    ∀ (fuel : Nat) (t : FSNode), sizeOf t ≤ fuel →
      find_root_fuel fuel t = some (find_mustgather_root t) := by
  intro fuel
  induction fuel with
  | zero =>
    intro t ht
    exact absurd ht (by have := FSNode.one_le_sizeOf t; omega)
  | succ fuel ih =>
    intro t ht
    cases t with
    | file c => simp [find_root_fuel, find_root_file]
    | dir es =>
      by_cases hm : isMarked es = true
      · simp [find_root_fuel, hm, find_root_marked hm]
      · have hm2 : isMarked es = false := by simpa using hm
        cases hsub : es.filter (fun e => e.2.isDirB) with
        | nil =>
          rw [find_root_other hm2 (by rw [hsub]; simp)]
          simp [find_root_fuel, hm2, hsub]
        | cons e rest =>
          cases rest with
          | nil =>
            have hrec : find_root_fuel fuel e.2 =
                some (find_mustgather_root e.2) := by
              apply ih
              have hmem : e ∈ es.filter (fun e => e.2.isDirB) := by
                rw [hsub]; simp
              have hmem2 : (e.1, e.2) ∈ es := by
                rw [Prod.mk.eta]; exact List.mem_of_mem_filter hmem
              have hlt : sizeOf e.2 < sizeOf (FSNode.dir es) :=
                sizeOf_lt_of_entry_mem hmem2
              omega
            rw [find_root_single hm2 hsub]
            simp [find_root_fuel, hm2, hsub, hrec]
          | cons e2 rest2 =>
            rw [find_root_other hm2 (by rw [hsub]; simp)]
            simp [find_root_fuel, hm2, hsub]

/-- C8: the root search terminates on every finite tree — running the
fuel-indexed variant with fuel `sizeOf t` always completes and agrees with
the recursive function — and there is no depth limit: a single-child chain
of any depth `d` over a marked directory is fully descended, and the only
errors ever produced are the read error and the ambiguous-root error
(there is no depth-limit error in `MgError`). -/
theorem find_root_terminates_without_depth_bound :
    (∀ t : FSNode, find_root_fuel (sizeOf t) t =
      some (find_mustgather_root t)) ∧
    (∀ (d : Nat) (ns : List String) (es : List (String × FSNode)),
      ns.length = d → isMarked es = true →
      find_mustgather_root (chain ns (FSNode.dir es)) = .ok ns) ∧
    (∀ (t : FSNode) (err : MgError), find_mustgather_root t = .error err →
      err = .readErr ∨ err = .ambiguousOrMissing) := by
  refine ⟨fun t => find_root_fuel_sufficient (sizeOf t) t le_rfl, ?_, ?_⟩
  · intro d ns es hd hm
    rw [find_root_chain, find_root_marked hm]
    simp [Except.map]
  · intro t err hfind
    cases err
    · exact Or.inl rfl
    · exact Or.inr rfl

/-- Witness for C8 at a concrete chain of depth 1. -/
theorem find_root_terminates_without_depth_bound_witness :
    find_mustgather_root
        (chain ["a"] (FSNode.dir [("version", FSNode.file "4")])) =
      .ok ["a"] :=
  find_root_terminates_without_depth_bound.2.1 1 ["a"]
    [("version", FSNode.file "4")] rfl rfl

/-- Entry names of a directory listing are pairwise distinct. -/
def namesNodup : List (String × FSNode) → Bool
  | [] => true
  | e :: rest => rest.all (fun e2 => e2.1 != e.1) && namesNodup rest

/-- Fuel-indexed filesystem well-formedness: every directory reachable
within `fuel` levels has pairwise-distinct entry names (real directories
cannot hold two entries of the same name).  `false` when the fuel runs
out before the tree does. -/
def nodeWFn : Nat → FSNode → Bool
  | 0, _ => false
  | _ + 1, .file _ => true
  | fuel + 1, .dir es => namesNodup es && es.all (fun e => nodeWFn fuel e.2)

theorem lookup_of_mem_nodup {es : List (String × FSNode)}
    {e : String × FSNode} (hnd : namesNodup es = true) (hm : e ∈ es) :
    lookupEntry es e.1 = some e.2 := by
  induction es with
  | nil => cases hm
  | cons hd tl ih =>
    rcases List.mem_cons.mp hm with h | h
    · subst h
      simp [lookupEntry, List.find?]
    · have hnd1 : ∀ e2 ∈ tl, (e2.1 != hd.1) = true := by
        intro e2 he2
        have := (Bool.and_eq_true _ _).mp hnd
        exact List.all_eq_true.mp this.1 e2 he2
      have hnd2 : namesNodup tl = true :=
        ((Bool.and_eq_true _ _).mp hnd).2
      have hne : (hd.1 == e.1) = false := by
        have := hnd1 e h
        simp only [bne_iff_ne, ne_eq] at this
        simp only [beq_eq_false_iff_ne, ne_eq]
        exact fun hc => this hc.symm
      have ihr := ih hnd2 h
      simp only [lookupEntry, List.find?, hne] at ihr ⊢
      exact ihr

/-- The validated root handle (mustgather.rs lines 6-9): immutable once
constructed, holding only the located path. -/
structure MustGatherRoot where
  path : List String
deriving DecidableEq, Repr

/-- Shallow embedding of `MustGatherRoot::new` (mustgather.rs lines
12-18): run the finder and wrap the located path. -/
def MustGatherRoot.new (t : FSNode) : Except MgError MustGatherRoot :=
  (find_mustgather_root t).map (fun p => { path := p })

theorem find_root_marked_at_path :
    ∀ (fuel : Nat) (t : FSNode) (p : List String),
      nodeWFn fuel t = true → find_mustgather_root t = .ok p →
      ∃ es, resolve t p = some (FSNode.dir es) ∧ isMarked es = true := by
  intro fuel
  induction fuel with
  | zero =>
    intro t p hwf
    simp [nodeWFn] at hwf
  | succ fuel ih =>
    intro t p hwf hfind
    cases t with
    | file c =>
      rw [find_root_file] at hfind
      cases hfind
    | dir es =>
      by_cases hm : isMarked es = true
      · rw [find_root_marked hm] at hfind
        cases hfind
        exact ⟨es, rfl, hm⟩
      · have hm2 : isMarked es = false := by simpa using hm
        cases hsub : es.filter (fun e => e.2.isDirB) with
        | nil =>
          rw [find_root_other hm2 (by rw [hsub]; simp)] at hfind
          cases hfind
        | cons e rest =>
          cases rest with
          | cons e2 rest2 =>
            rw [find_root_other hm2 (by rw [hsub]; simp)] at hfind
            cases hfind
          | nil =>
            rw [find_root_single hm2 hsub] at hfind
            cases hrec : find_mustgather_root e.2 with
            | error err =>
              rw [hrec] at hfind
              simp [Except.map] at hfind
            | ok p2 =>
              rw [hrec] at hfind
              simp only [Except.map] at hfind
              have hp : p = e.1 :: p2 := by
                cases hfind
                rfl
              subst hp
              have hwfes : (namesNodup es && es.all
                  (fun e => nodeWFn fuel e.2)) = true := by
                simpa [nodeWFn] using hwf
              have hnd : namesNodup es = true :=
                ((Bool.and_eq_true _ _).mp hwfes).1
              have hall : ∀ x ∈ es, nodeWFn fuel x.2 = true :=
                List.all_eq_true.mp ((Bool.and_eq_true _ _).mp hwfes).2
              have hmemf : e ∈ es.filter (fun x => x.2.isDirB) := by
                rw [hsub]; simp
              have hmem : e ∈ es := List.mem_of_mem_filter hmemf
              obtain ⟨es2, hres, hmk⟩ := ih e.2 p2 (hall e hmem) hrec
              have hlook : lookupEntry es e.1 = some e.2 :=
                lookup_of_mem_nodup hnd hmem
              refine ⟨es2, ?_, hmk⟩
              simp only [resolve, hlook]
              exact hres

/-- C9: every successfully constructed `MustGatherRoot` satisfies the
invariant: on a well-formed tree (distinct entry names per directory, as
on a real filesystem), its stored path resolves to a directory that
carries a `version` file or both marker directories.  The structure is
immutable: it holds only `path`, set once at construction. -/
theorem mustgather_root_new_invariant (t : FSNode) (r : MustGatherRoot)
    (fuel : Nat) (hwf : nodeWFn fuel t = true)
    (hnew : MustGatherRoot.new t = .ok r) :
    ∃ es, resolve t r.path = some (FSNode.dir es) ∧ isMarked es = true := by
  have hfind : find_mustgather_root t = .ok r.path := by
    rw [MustGatherRoot.new] at hnew
    cases hf : find_mustgather_root t with
    | error err =>
      rw [hf] at hnew
      simp [Except.map] at hnew
    | ok p =>
      rw [hf] at hnew
      simp only [Except.map] at hnew
      cases hnew
      rfl
  exact find_root_marked_at_path fuel t r.path hwf hfind

/-- Witness for C9 at a concrete one-level tree. -/
theorem mustgather_root_new_invariant_witness :
    ∃ es, resolve (FSNode.dir [("version", FSNode.file "4")])
        (MustGatherRoot.mk []).path = some (FSNode.dir es) ∧
      isMarked es = true :=
  mustgather_root_new_invariant (FSNode.dir [("version", FSNode.file "4")])
    (MustGatherRoot.mk []) 2 (by decide)
    (by
      rw [MustGatherRoot.new,
        @find_root_marked [("version", FSNode.file "4")] rfl]
      rfl)

/-- The filter closure of mustgather.rs lines 54-59: an `Ok` directory
entry passes when its path is a directory; an `Err` entry is dropped. -/
def entryIsDir (r : Except Unit (String × FSNode)) : Bool :=
  match r with
  | .ok d => d.2.isDirB
  | .error _ => false

/-- The `.unwrap()` of mustgather.rs line 60, modelled total: `none`
stands for the panic on an `Err` entry. -/
def unwrapEntry (r : Except Unit (String × FSNode)) :
    Option (String × FSNode) :=
  match r with
  | .ok d => some d
  | .error _ => none

/-- The `sub_directories` pipeline of mustgather.rs lines 52-61: filter
the iterator results, then unwrap each survivor. -/
def sub_directories (rs : List (Except Unit (String × FSNode))) :
    List (Option (String × FSNode)) :=
  (rs.filter entryIsDir).map unwrapEntry

/-- C10: iterator errors are filtered out before the unwrap — every entry
surviving the filter is an `Ok` holding a directory, so the unwrap never
hits the panic case — and when the filtered list has length one the index
access at position zero is in bounds. -/
theorem sub_directories_never_panics
    (rs : List (Except Unit (String × FSNode))) :
    (∀ r ∈ rs.filter entryIsDir, ∃ d, r = .ok d ∧ d.2.isDirB = true) ∧
    (∀ x ∈ sub_directories rs, x.isSome = true) ∧
    ((rs.filter entryIsDir).length = 1 → 0 < (sub_directories rs).length) := by
  have hok : ∀ r ∈ rs.filter entryIsDir, ∃ d, r = .ok d ∧ d.2.isDirB = true := by
    intro r hr
    have hp : entryIsDir r = true := List.of_mem_filter hr
    cases r with
    | ok d => exact ⟨d, rfl, hp⟩
    | error u => simp [entryIsDir] at hp
  refine ⟨hok, ?_, ?_⟩
  · intro x hx
    obtain ⟨r, hr, hrx⟩ := List.mem_map.mp hx
    obtain ⟨d, hd, _⟩ := hok r hr
    subst hd
    simp [unwrapEntry] at hrx
    subst hrx
    rfl
  · intro hlen
    simp [sub_directories, List.length_map, hlen]

/-- Witness for C10: the index bound at a concrete entry list holding one
`Ok` directory entry and one iterator error. -/
theorem sub_directories_never_panics_witness :
    0 < (sub_directories
      [Except.ok ("a", FSNode.dir []), Except.error ()]).length :=
  (sub_directories_never_panics
    [Except.ok ("a", FSNode.dir []), Except.error ()]).2.2 (by rfl)

/-- The `yaml_rust::Yaml` document values the code inspects: hashes keyed
by strings, arrays, scalar leaves, and the `BadValue` returned by failed
indexing. -/
inductive Yaml : Type where
  | badValue : Yaml
  | scalar (s : String) : Yaml
  | array (items : List Yaml) : Yaml
  | hash (entries : List (String × Yaml)) : Yaml
deriving Inhabited

/-- `yaml_rust` indexing by string key (`doc["items"]`): hash lookup,
`BadValue` when the key is missing or the value is not a hash. -/
def Yaml.get (y : Yaml) (key : String) : Yaml :=
  match y with
  | .hash es =>
    match es.find? (fun e => e.1 == key) with
    | some e => e.2
    | none => .badValue
  | _ => .badValue

/-- One extracted resource instance (`K8sManifest`, k8s_resources.rs
lines 9-13): source path, optional raw text, parsed document. -/
structure K8sManifest where
  source_path : List String
  raw : Option String
  yaml : Yaml

/-- Errors of the resource extractor.  `panicMissingExtension` models the
`unwrap` panic on `Path::extension` returning `None` (a process abort in
the original, not a returned error); the rest are the `anyhow` errors. -/
inductive ResError : Type where
  | notADirectory : ResError
  | notAFile : ResError
  | parseErr : ResError
  | multiDocumentFile : ResError
  | unexpectedShape : ResError
  | resourcesNotFound : ResError
  | noParent : ResError
  | panicMissingExtension : ResError
deriving DecidableEq, Repr

/-- The structured-document loader is a leaf dependency; manifest reading
is parameterised by its parse function (text to document sequence). -/
def ParseFn : Type := String → Except Unit (List Yaml)

/-- Split a character list at every dot. -/
def splitDots : List Char → List (List Char)
  | [] => [[]]
  | c :: rest =>
    if c = '.' then
      [] :: splitDots rest
    else
      match splitDots rest with
      | [] => [[c]]
      | g :: gs => (c :: g) :: gs

/-- `Path::extension` on a file name: the part after the last dot; `none`
when there is no dot, or when the only dot is the leading one. -/
def extension (name : String) : Option String :=
  match splitDots name.data with
  | [] => none
  | [_] => none
  | [[], _] => none
  | parts => parts.getLast?.map (fun l => String.mk l)

/-- The directory-scan filter of k8s_resources.rs lines 24-33:
`f.path().is_file() && f.path().extension().unwrap() == "yaml"`.  Keeps
the names and contents of files with the `yaml` extension; skips
directories and files with other extensions; the `unwrap` panic on a file
with no extension is modelled by `panicMissingExtension`. -/
def selectYamlFiles (entries : List (String × FSNode)) :
    Except ResError (List (String × String)) :=
  match entries with
  | [] => .ok []
  | (n, node) :: rest =>
    match node with
    | .dir _ => selectYamlFiles rest
    | .file content =>
      match extension n with
      | none => .error .panicMissingExtension
      | some ext =>
        if ext == "yaml" then
          match selectYamlFiles rest with
          | .ok r => .ok ((n, content) :: r)
          | .error err => .error err
        else
          selectYamlFiles rest

/-- The per-file loop of k8s_resources.rs lines 37-57: read each selected
file, parse it, require exactly one document, and build a `K8sManifest`
keeping the raw text. -/
def buildManifests (parse : ParseFn) (path : List String) :
    List (String × String) → Except ResError (List K8sManifest)
  | [] => .ok []
  | (n, content) :: rest =>
    match parse content with
    | .error _ => .error .parseErr
    | .ok docs =>
      match docs with
      | [d] =>
        match buildManifests parse path rest with
        | .ok r => .ok ({ source_path := path ++ [n],
                          raw := some content, yaml := d } :: r)
        | .error err => .error err
      | _ => .error .multiDocumentFile

/-- Shallow embedding of `K8sManifest::read_dir` (k8s_resources.rs lines
18-60), acting on the resolved node at `path`. -/
def K8sManifest.read_dir (parse : ParseFn) (path : List String)
    (node : FSNode) : Except ResError (List K8sManifest) :=
  match node with
  | .file _ => .error .notADirectory
  | .dir entries =>
    match selectYamlFiles entries with
    | .ok files => buildManifests parse path files
    | .error err => .error err

/-- Shallow embedding of `K8sManifest::read_file` (k8s_resources.rs lines
62-95), acting on the resolved node at `path`. -/
def K8sManifest.read_file (parse : ParseFn) (path : List String)
    (node : FSNode) : Except ResError (List K8sManifest) :=
  match node with
  | .dir _ => .error .notAFile
  | .file content =>
    match parse content with
    | .error _ => .error .parseErr
    | .ok docs =>
      match docs with
      | [d] =>
        match Yaml.get d "items" with
        | .array items =>
          .ok (items.map (fun i =>
            { source_path := path, raw := none, yaml := i }))
        | _ => .error .unexpectedShape
      | _ => .error .multiDocumentFile

/-- `get_resources_root` (k8s_resources.rs lines 110-115): scope path plus
the API group plus the plural kind. -/
def get_resources_root (scopePath : List String) (group plural : String) :
    List String :=
  scopePath ++ [group, plural]

/-- `Path::parent` on a relative component list. -/
def parentPath (p : List String) : Option (List String) :=
  if p.isEmpty then none else some p.dropLast

/-- The fallback document path computed at k8s_resources.rs lines 123-127:
parent of the candidate directory, then `<plural>.yaml`. -/
def resources_document_path (scopePath : List String)
    (group plural : String) : Option (List String) :=
  (parentPath (get_resources_root scopePath group plural)).map
    (fun par => par ++ [plural ++ ".yaml"])

/-- `is_dir` of a path against a tree. -/
def isDirAt (t : FSNode) (p : List String) : Bool :=
  match resolve t p with
  | some (.dir _) => true
  | _ => false

/-- `is_file` of a path against a tree. -/
def isFileAt (t : FSNode) (p : List String) : Bool :=
  match resolve t p with
  | some (.file _) => true
  | _ => false

/-- Shallow embedding of `get_all_resources` (k8s_resources.rs lines
117-132): prefer the one-file-per-instance directory layout, fall back to
the sibling list-document file, else fail. -/
def get_all_resources (parse : ParseFn) (t : FSNode)
    (scopePath : List String) (group plural : String) :
    Except ResError (List K8sManifest) :=
  let resources_root := get_resources_root scopePath group plural
  if isDirAt t resources_root then
    match resolve t resources_root with
    | some node => K8sManifest.read_dir parse resources_root node
    | none => .error .notADirectory
  else
    match resources_document_path scopePath group plural with
    | none => .error .noParent
    | some resources_document =>
      if isFileAt t resources_document then
        match resolve t resources_document with
        | some node => K8sManifest.read_file parse resources_document node
        | none => .error .notAFile
      else
        .error .resourcesNotFound

/-- A concrete loader for witnesses: every text is one scalar document. -/
def parseAsScalar : ParseFn := fun s => Except.ok [Yaml.scalar s]

/-- A concrete loader for witnesses: every text is two scalar documents. -/
def parseAsTwoDocs : ParseFn :=
  fun s => Except.ok [Yaml.scalar s, Yaml.scalar s]

/-- A concrete loader for witnesses: every text is one list-type document
whose `items` array holds two scalars. -/
def parseAsListDoc : ParseFn :=
  fun s => Except.ok
    [Yaml.hash [("items", Yaml.array [Yaml.scalar s, Yaml.scalar "b"])]]

/-- C3 counterexample: at the concrete descriptor of the test
in the repository (group `apps`, plural `deployments`, scope
`namespaces/openshift-machine-api`), the probed sibling file path keeps
the API group directory — refuting the claim that the group component is
dropped from the probed file path. -/
theorem resources_document_path_keeps_group_counterexample :
    resources_document_path ["namespaces", "openshift-machine-api"] "apps"
        "deployments" =
      some ["namespaces", "openshift-machine-api", "apps",
        "deployments.yaml"] ∧
    "apps" ∈ ["namespaces", "openshift-machine-api", "apps",
        "deployments.yaml"] := by
  exact ⟨rfl, by simp⟩

/-- C3 amended: the probed sibling file path is the parent of the
candidate directory — which still ends in the API group component — plus
`<plural>.yaml`; only the plural-kind directory level is replaced by the
file name, and the group directory remains in the probed path.  The
fallback of `get_all_resources` reads exactly that path. -/
theorem resources_document_path_amended :
    (∀ (scopePath : List String) (group plural : String),
      resources_document_path scopePath group plural =
        some (scopePath ++ [group, plural ++ ".yaml"]) ∧
      group ∈ scopePath ++ [group, plural ++ ".yaml"]) ∧
    (∀ (parse : ParseFn) (t : FSNode) (scopePath : List String)
        (group plural : String) (content : String),
      isDirAt t (get_resources_root scopePath group plural) = false →
      resolve t (scopePath ++ [group, plural ++ ".yaml"]) =
        some (FSNode.file content) →
      get_all_resources parse t scopePath group plural =
        K8sManifest.read_file parse (scopePath ++ [group, plural ++ ".yaml"])
          (FSNode.file content)) := by
  have hpath : ∀ (scopePath : List String) (group plural : String),
      resources_document_path scopePath group plural =
        some (scopePath ++ [group, plural ++ ".yaml"]) := by
    intro scopePath group plural
    have hne : (scopePath ++ [group, plural]).isEmpty = false := by
      simp [List.isEmpty_iff]
    have hdl : (scopePath ++ [group, plural]).dropLast =
        scopePath ++ [group] := by
      rw [show scopePath ++ [group, plural] =
        (scopePath ++ [group]) ++ [plural] by simp]
      rw [List.dropLast_concat]
    simp [resources_document_path, get_resources_root, parentPath, hne, hdl]
  constructor
  · intro scopePath group plural
    exact ⟨hpath scopePath group plural, by simp⟩
  · intro parse t scopePath group plural content hdir hres
    have hfile : isFileAt t (scopePath ++ [group, plural ++ ".yaml"]) =
        true := by
      simp [isFileAt, hres]
    simp only [get_all_resources, hdir, Bool.false_eq_true, if_false,
      hpath scopePath group plural, hfile, if_true, hres]

/-- Witness for the C3 amended theorem at a concrete tree holding only
the list-document file. -/
theorem resources_document_path_amended_witness :
    get_all_resources parseAsListDoc
        (FSNode.dir [("apps", FSNode.dir
          [("deployments.yaml", FSNode.file "d")])])
        [] "apps" "deployments" =
      K8sManifest.read_file parseAsListDoc ["apps", "deployments.yaml"]
        (FSNode.file "d") :=
  resources_document_path_amended.2 parseAsListDoc
    (FSNode.dir [("apps", FSNode.dir
      [("deployments.yaml", FSNode.file "d")])])
    [] "apps" "deployments" "d" (by rfl) (by rfl)

/-- C4 counterexample: a directory holding one file with no extension at
all makes the directory-layout extraction abort — the original panics on
`extension().unwrap()`, modelled as the `panicMissingExtension` error —
refuting the claim that such entries are silently skipped with neither an
error nor a panic. -/
theorem read_dir_extensionless_file_counterexample :
    K8sManifest.read_dir parseAsScalar []
        (FSNode.dir [("README", FSNode.file "hi")]) =
      .error .panicMissingExtension := by
  rfl

theorem selectYamlFiles_skips :
    ∀ (entries : List (String × FSNode)),
    (∀ n c, (n, FSNode.file c) ∈ entries → (extension n).isSome = true) →
    (∀ n c, (n, FSNode.file c) ∈ entries → extension n ≠ some "yaml") →
    selectYamlFiles entries = .ok [] := by
  intro entries
  induction entries with
  | nil => intro _ _; rfl
  | cons e rest ih =>
    intro hext hny
    obtain ⟨n, node⟩ := e
    have ihr := ih
      (fun m c h => hext m c (List.mem_cons_of_mem _ h))
      (fun m c h => hny m c (List.mem_cons_of_mem _ h))
    cases node with
    | dir es2 =>
      simpa only [selectYamlFiles] using ihr
    | file content =>
      have h1 := hext n content (List.mem_cons_self _ _)
      have h2 := hny n content (List.mem_cons_self _ _)
      cases hei : extension n with
      | none => rw [hei] at h1; simp at h1
      | some ext =>
        have hne : (ext == "yaml") = false := by
          rw [hei] at h2
          simp only [beq_eq_false_iff_ne, ne_eq]
          intro hc
          exact h2 (by rw [hc])
        simpa only [selectYamlFiles, hei, hne, Bool.false_eq_true,
          if_false] using ihr

/-- C4 amended: directory entries that are not files, and files whose
extension exists but is not the recognized `yaml` extension, are silently
skipped — the directory extraction returns successfully with no resource
from them and no error; but a file with no extension at all is not
skipped: it aborts the extraction with the unwrap panic (see the
counterexample). -/
theorem read_dir_skips_nonmatching_extensions (parse : ParseFn)
    (path : List String) (entries : List (String × FSNode))
    (hext : ∀ n c, (n, FSNode.file c) ∈ entries →
      (extension n).isSome = true)
    (hny : ∀ n c, (n, FSNode.file c) ∈ entries →
      extension n ≠ some "yaml") :
    K8sManifest.read_dir parse path (FSNode.dir entries) = .ok [] := by
  have hsel := selectYamlFiles_skips entries hext hny
  simp only [K8sManifest.read_dir, hsel]
  rfl

/-- Witness for the C4 amended theorem: a directory holding a `.txt` file
and a subdirectory extracts to the empty resource list. -/
theorem read_dir_skips_nonmatching_extensions_witness :
    K8sManifest.read_dir parseAsScalar []
        (FSNode.dir [("notes.txt", FSNode.file "hi"),
          ("sub", FSNode.dir [])]) = .ok [] :=
  read_dir_skips_nonmatching_extensions parseAsScalar []
    [("notes.txt", FSNode.file "hi"), ("sub", FSNode.dir [])]
    (by
      intro n c h
      rcases List.mem_cons.mp h with h1 | h1
      · injection h1 with hn hc
        subst hn
        decide
      · rcases List.mem_cons.mp h1 with h2 | h2
        · injection h2 with hn hc
          cases hc
        · cases h2)
    (by
      intro n c h
      rcases List.mem_cons.mp h with h1 | h1
      · injection h1 with hn hc
        subst hn
        decide
      · rcases List.mem_cons.mp h1 with h2 | h2
        · injection h2 with hn hc
          cases hc
        · cases h2)

theorem selectYamlFiles_all_yaml :
    ∀ (files : List (String × String)),
    (∀ f ∈ files, extension f.1 = some "yaml") →
    selectYamlFiles (files.map (fun f => (f.1, FSNode.file f.2))) =
      .ok files := by
  intro files
  induction files with
  | nil => intro _; rfl
  | cons f rest ih =>
    intro hext
    have h1 := hext f (List.mem_cons_self _ _)
    have ihr := ih (fun g hg => hext g (List.mem_cons_of_mem _ hg))
    simp only [List.map_cons, selectYamlFiles, h1, ihr, beq_self_eq_true,
      if_true]

theorem buildManifests_roundtrip (parse : ParseFn) (path : List String) :
    ∀ (files : List (String × String)),
    (∀ f ∈ files, ∃ d, parse f.2 = Except.ok [d]) →
    ∃ ms, buildManifests parse path files = .ok ms ∧
      ms.length = files.length ∧
      List.Forall₂ (fun (f : String × String) (m : K8sManifest) =>
        m.source_path = path ++ [f.1] ∧ m.raw = some f.2 ∧
        parse f.2 = Except.ok [m.yaml]) files ms := by
  intro files
  induction files with
  | nil => intro _; exact ⟨[], rfl, rfl, List.Forall₂.nil⟩
  | cons f rest ih =>
    intro hp
    obtain ⟨n, c⟩ := f
    obtain ⟨d, hd⟩ := hp (n, c) (List.mem_cons_self _ _)
    obtain ⟨ms, hms, hlen, hfa⟩ :=
      ih (fun g hg => hp g (List.mem_cons_of_mem _ hg))
    refine ⟨{ source_path := path ++ [n],
              raw := some c,
              yaml := d } :: ms, ?_, ?_, ?_⟩
    · simp only [buildManifests, hd, hms]
    · simp [hlen]
    · exact List.Forall₂.cons ⟨rfl, rfl, hd⟩ hfa

/-- C5: round-trip for the one-file-per-instance layout — a resource-type
directory of N files with the recognized extension, each parsing to
exactly one document, extracts to exactly N resources, in order, each
carrying raw text identical to the content of its file and the document parsed
from that text. -/
theorem read_dir_roundtrip (parse : ParseFn) (path : List String)
    (files : List (String × String))
    (hext : ∀ f ∈ files, extension f.1 = some "yaml")
    (hparse : ∀ f ∈ files, ∃ d, parse f.2 = Except.ok [d]) :
    ∃ ms, K8sManifest.read_dir parse path
        (FSNode.dir (files.map (fun f => (f.1, FSNode.file f.2)))) =
      .ok ms ∧
      ms.length = files.length ∧
      List.Forall₂ (fun (f : String × String) (m : K8sManifest) =>
        m.source_path = path ++ [f.1] ∧ m.raw = some f.2 ∧
        parse f.2 = Except.ok [m.yaml]) files ms := by
  obtain ⟨ms, hms, hlen, hfa⟩ := buildManifests_roundtrip parse path files hparse
  refine ⟨ms, ?_, hlen, hfa⟩
  simp only [K8sManifest.read_dir, selectYamlFiles_all_yaml files hext, hms]

/-- Witness for C5: one `a.yaml` file under the scalar-document loader. -/
theorem read_dir_roundtrip_witness :
    ∃ ms, K8sManifest.read_dir parseAsScalar ["r"]
        (FSNode.dir ([("a.yaml", "doc")].map
          (fun f => (f.1, FSNode.file f.2)))) =
      .ok ms ∧
      ms.length = [("a.yaml", "doc")].length ∧
      List.Forall₂ (fun (f : String × String) (m : K8sManifest) =>
        m.source_path = ["r"] ++ [f.1] ∧ m.raw = some f.2 ∧
        parseAsScalar f.2 = Except.ok [m.yaml]) [("a.yaml", "doc")] ms :=
  read_dir_roundtrip parseAsScalar ["r"] [("a.yaml", "doc")]
    (by
      intro f hf
      rcases List.mem_cons.mp hf with h1 | h1
      · subst h1; decide
      · cases h1)
    (by
      intro f hf
      rcases List.mem_cons.mp hf with h1 | h1
      · subst h1; exact ⟨Yaml.scalar "doc", rfl⟩
      · cases h1)

/-- C6: a list-type document file whose single parsed document carries an
`items` array of M elements extracts to exactly M resources in order,
each with raw text absent and the corresponding array element as its
document; when `items` is missing or not an array the extraction fails
with the unexpected-shape error. -/
theorem read_file_list_extraction (parse : ParseFn) (path : List String)
    (content : String) (d : Yaml)
    (hp : parse content = Except.ok [d]) :
    (∀ items, Yaml.get d "items" = Yaml.array items →
      K8sManifest.read_file parse path (FSNode.file content) =
        .ok (items.map (fun i =>
          { source_path := path, raw := none, yaml := i }))) ∧
    ((∀ items, Yaml.get d "items" ≠ Yaml.array items) →
      K8sManifest.read_file parse path (FSNode.file content) =
        .error .unexpectedShape) := by
  constructor
  · intro items hit
    simp only [K8sManifest.read_file, hp, hit]
  · intro hne
    cases hgt : Yaml.get d "items" with
    | badValue => simp only [K8sManifest.read_file, hp, hgt]
    | scalar s => simp only [K8sManifest.read_file, hp, hgt]
    | array items => exact absurd hgt (hne items)
    | hash es => simp only [K8sManifest.read_file, hp, hgt]

/-- Witness for C6 at a concrete two-element list document. -/
theorem read_file_list_extraction_witness :
    K8sManifest.read_file parseAsListDoc ["p"] (FSNode.file "x") =
      .ok ([Yaml.scalar "x", Yaml.scalar "b"].map (fun i =>
        { source_path := ["p"], raw := none, yaml := i })) :=
  (read_file_list_extraction parseAsListDoc ["p"] "x"
    (Yaml.hash [("items", Yaml.array [Yaml.scalar "x", Yaml.scalar "b"])])
    rfl).1 [Yaml.scalar "x", Yaml.scalar "b"] rfl

theorem buildManifests_multidoc (parse : ParseFn) (path : List String) :
    ∀ (files : List (String × String)),
    (∀ f ∈ files, (parse f.2).isOk = true) →
    (∃ f ∈ files, ∀ docs, parse f.2 = Except.ok docs →
      docs.length ≠ 1) →
    buildManifests parse path files = .error .multiDocumentFile := by
  intro files
  induction files with
  | nil =>
    intro _ hbad
    obtain ⟨f, hf, _⟩ := hbad
    cases hf
  | cons f rest ih =>
    intro hok hbad
    obtain ⟨n, c⟩ := f
    cases hpc : parse c with
    | error err =>
      have h1 := hok (n, c) (List.mem_cons_self _ _)
      rw [hpc] at h1
      simp [Except.isOk, Except.toBool] at h1
    | ok docs =>
      cases docs with
      | nil => simp only [buildManifests, hpc]
      | cons d ds =>
        cases ds with
        | nil =>
          obtain ⟨g, hg, hbadg⟩ := hbad
          rcases List.mem_cons.mp hg with hg1 | hg2
          · subst hg1
            exact absurd rfl (hbadg [d] hpc)
          · have hrest := ih
              (fun x hx => hok x (List.mem_cons_of_mem _ hx))
              ⟨g, hg2, hbadg⟩
            simp only [buildManifests, hpc, hrest]
        | cons d2 ds2 => simp only [buildManifests, hpc]

/-- C7: in both layouts a candidate file must hold exactly one parsed
document — in the directory layout, one file parsing to a document count
other than one aborts the whole extraction with the multi-document error
and no partial result; in the list-file layout, a document count other
than one likewise fails with the multi-document error. -/
theorem single_document_required (parse : ParseFn) (path : List String)
    (files : List (String × String))
    (hext : ∀ f ∈ files, extension f.1 = some "yaml")
    (hok : ∀ f ∈ files, (parse f.2).isOk = true)
    (hbad : ∃ f ∈ files, ∀ docs, parse f.2 = Except.ok docs →
      docs.length ≠ 1) :
    K8sManifest.read_dir parse path
        (FSNode.dir (files.map (fun f => (f.1, FSNode.file f.2)))) =
      .error .multiDocumentFile ∧
    (∀ (content : String) (docs : List Yaml),
      parse content = Except.ok docs → docs.length ≠ 1 →
      K8sManifest.read_file parse path (FSNode.file content) =
        .error .multiDocumentFile) := by
  constructor
  · have hbm := buildManifests_multidoc parse path files hok hbad
    simp only [K8sManifest.read_dir, selectYamlFiles_all_yaml files hext,
      hbm]
  · intro content docs hpc hlen
    simp only [K8sManifest.read_file, hpc]
    cases docs with
    | nil => rfl
    | cons d ds =>
      cases ds with
      | nil => exact absurd rfl hlen
      | cons d2 ds2 => rfl

/-- Witness for C7: one `a.yaml` file under the two-document loader, and
the list-file half at a two-document file. -/
theorem single_document_required_witness :
    K8sManifest.read_dir parseAsTwoDocs ["r"]
        (FSNode.dir ([("a.yaml", "x")].map
          (fun f => (f.1, FSNode.file f.2)))) =
      .error .multiDocumentFile ∧
    K8sManifest.read_file parseAsTwoDocs ["r"] (FSNode.file "x") =
      .error .multiDocumentFile := by
  have h := single_document_required parseAsTwoDocs ["r"] [("a.yaml", "x")]
    (by
      intro f hf
      rcases List.mem_cons.mp hf with h1 | h1
      · subst h1; decide
      · cases h1)
    (by
      intro f hf
      rcases List.mem_cons.mp hf with h1 | h1
      · subst h1; rfl
      · cases h1)
    ⟨("a.yaml", "x"), List.mem_cons_self _ _,
      by
        intro docs hdocs
        injection hdocs with h2
        rw [← h2]
        decide⟩
  exact ⟨h.1, h.2 "x" [Yaml.scalar "x", Yaml.scalar "x"] rfl (by decide)⟩

end Camgi
